import Mathlib

/-!
Shallow embedding of the `lite-fs` repository (a hierarchical file system
over a flat key-value store) and verification of claims about it.

Strings of the TypeScript source are modelled as `List Char`; each JavaScript
string primitive used by the source (`split`, `slice`, `endsWith`,
`lastIndexOf`, `startsWith`, string append) is given a direct list
counterpart below.  The IndexedDB object store is modelled as an association
list from storage keys to entries, and the secondary `by-parent` index as a
filter over it.  Timestamps (`Date.now()`) are threaded explicitly as a
parameter `t`.  Thrown `FSError`s are modelled with `Except`.
-/

set_option autoImplicit false

namespace LiteFS

/-! ## JavaScript string primitives over `List Char` -/

/-- JS `s.split(sep)` for a single-character separator: always returns a
non-empty list of (possibly empty) segments. -/
def splitOnChar (c : Char) : List Char → List (List Char)
  | [] => [[]]
  | x :: xs =>
    match splitOnChar c xs with
    | [] => [[]]
    | s :: rest => if x = c then [] :: s :: rest else (x :: s) :: rest

/-- JS `s.endsWith(c)` for a single character. -/
def endsWithChar (c : Char) (l : List Char) : Bool :=
  decide (l.getLast? = some c)

/-- JS `s.startsWith(p)` (first argument is the candidate prefix `p`). -/
def startsWithList : List Char → List Char → Bool
  | [], _ => true
  | _ :: _, [] => false
  | p :: ps, x :: xs => p == x && startsWithList ps xs

/-- JS `s.lastIndexOf(c)` for a single character, `none` standing for `-1`. -/
def lastIndexOfChar (c : Char) : List Char → Option Nat
  | [] => none
  | x :: xs =>
    match lastIndexOfChar c xs with
    | some i => some (i + 1)
    | none => if x = c then some 0 else none

/-! ## `src/path.ts` — the path model -/

/-- `isAbsolutePath` from `src/path.ts`: the path starts with `/`. -/
def isAbsolutePath (p : List Char) : Bool :=
  p.head? == some '/'

/-- `isFolderPath` from `src/path.ts`: the path ends with `/`. -/
def isFolderPath (p : List Char) : Bool :=
  endsWithChar '/' p

/-- The `type` argument of `validatePath`. -/
inductive PathKind where
  | file
  | folder
deriving DecidableEq

/-- Error codes of `src/error.ts`. -/
inductive FSErrorCode where
  | ENOENT
  | EEXIST
  | ENOTDIR
  | EISDIR
  | ENOTEMPTY
  | EINVAL
deriving DecidableEq

/-- `FSError` from `src/error.ts` (code, offending path, syscall name). -/
structure FSError where
  code : FSErrorCode
  path : List Char
  syscall : String
deriving DecidableEq

/-- The segment loop of `validatePath` (`src/path.ts`), applied to
`path.split("/")` with the leading segment dropped: an empty segment is only
allowed in final position, and `.` / `..` segments are always rejected. -/
def validSegs : List (List Char) → Bool
  | [] => true
  | [s] => !(s == ['.']) && !(s == ['.', '.'])
  | s :: rest => !(s == []) && !(s == ['.']) && !(s == ['.', '.']) && validSegs rest

/-- `validatePath` from `src/path.ts`: checks absoluteness, the optional
file/folder kind constraint, and the segment rules, returning the path
unchanged on success. -/
def validatePath (path : List Char) (kind : Option PathKind) : Except FSError (List Char) :=
  if path.head? ≠ some '/' then .error ⟨.EINVAL, path, "validatePath"⟩
  else
    if kind = some .file ∧ endsWithChar '/' path = true then
      .error ⟨.EINVAL, path, "validatePath"⟩
    else if kind = some .folder ∧ endsWithChar '/' path = false then
      .error ⟨.EINVAL, path, "validatePath"⟩
    else if validSegs ((splitOnChar '/' path).drop 1) then .ok path
    else .error ⟨.EINVAL, path, "validatePath"⟩

/-- `getParentPath` from `src/path.ts`. -/
def getParentPath (p : List Char) : List Char :=
  if p = ['/'] ∨ p.head? ≠ some '/' then ['/']
  else
    let normalized := if endsWithChar '/' p then p.dropLast else p
    match lastIndexOfChar '/' normalized with
    | none => ['/']
    | some i => if i = 0 then ['/'] else normalized.take i ++ ['/']

/-- `getBaseName` from `src/path.ts`. -/
def getBaseName (p : List Char) : List Char :=
  if p = ['/'] then []
  else
    let normalized := if endsWithChar '/' p then p.dropLast else p
    match lastIndexOfChar '/' normalized with
    | none => normalized
    | some i => normalized.drop (i + 1)

/-! ## `joinPath` from `src/path.ts` -/

/-- The base normalization at the top of `joinPath`: ensure a leading and a
trailing separator. -/
def normBase (base : List Char) : List Char :=
  let b1 := if base.head? = some '/' then base else '/' :: base
  if endsWithChar '/' b1 then b1 else b1 ++ ['/']

/-- The inner segment loop of `joinPath`: skips empty and `.` segments, pops
on `..`, records the final segment of the final path as a file name when the
path does not end with a separator. -/
def segLoopJ (isLastPath ews : Bool) (folders : List (List Char))
    (fileName : Option (List Char)) : List (List Char) → List (List Char) × Option (List Char)
  | [] => (folders, fileName)
  | s :: srest =>
    if s = [] ∨ s = ['.'] then segLoopJ isLastPath ews folders fileName srest
    else if s = ['.', '.'] then segLoopJ isLastPath ews folders.dropLast none srest
    else if isLastPath && srest.isEmpty && !ews then segLoopJ isLastPath ews folders (some s) srest
    else segLoopJ isLastPath ews (folders ++ [s]) none srest

/-- The outer loop of `joinPath` over the path arguments: a path starting
with `/` resets the accumulated state to the base. -/
def joinGo (folders : List (List Char)) (fileName : Option (List Char)) :
    List (List Char) → List (List Char) × Option (List Char)
  | [] => (folders, fileName)
  | p :: rest =>
    let folders1 := if p.head? = some '/' then [] else folders
    let fileName1 := if p.head? = some '/' then none else fileName
    let p1 := if p.head? = some '/' then p.drop 1 else p
    let r := segLoopJ rest.isEmpty (endsWithChar '/' p1) folders1 fileName1 (splitOnChar '/' p1)
    joinGo r.1 r.2 rest

/-- `joinPath` from `src/path.ts`. -/
def joinPath (base : List Char) (paths : List (List Char)) : List Char :=
  let b := normBase base
  let r := joinGo [] none paths
  let folderPath := if r.1 = [] then b else b ++ List.intercalate ['/'] r.1 ++ ['/']
  match r.2 with
  | some f => folderPath ++ f
  | none => folderPath

/-! ## `src/lite-fs/core` — storage keys, entries and the object store -/

/-- `toStoragePath` from `src/lite-fs/core/path.ts`: folders are stored with
the trailing separator stripped; root maps to `/`.  (The source additionally
throws `EINVAL` on non-absolute input; every caller passes a path that has
already gone through `validatePath`, for which that guard is unreachable.) -/
def toStoragePath (p : List Char) : List Char :=
  if p = ['/'] then p
  else if endsWithChar '/' p then p.dropLast else p

/-- `DBEntry` from `src/lite-fs/core/db-entry.ts`: the tagged union of file
entries (content, parent key, mtime) and folder entries (parent key, mtime).
Content bytes are modelled as `List Nat`. -/
inductive DBEntry where
  | file (content : List Nat) (parent : List Char) (mtime : Nat)
  | folder (parent : List Char) (mtime : Nat)
deriving DecidableEq

/-- The `parent` field shared by both entry shapes. -/
def DBEntry.parent : DBEntry → List Char
  | .file _ p _ => p
  | .folder p _ => p

/-- The `mtime` field shared by both entry shapes. -/
def DBEntry.mtime : DBEntry → Nat
  | .file _ _ m => m
  | .folder _ m => m

/-- `entry.type === 'file'`. -/
def DBEntry.isFile : DBEntry → Bool
  | .file .. => true
  | .folder .. => false

/-- `entry.type === 'folder'`. -/
def DBEntry.isFolder (e : DBEntry) : Bool :=
  !e.isFile

/-- The spread `{ ...entry, parent }` used for moved descendants in
`rename`: replaces the parent key, keeps everything else (notably mtime). -/
def DBEntry.withParent : DBEntry → List Char → DBEntry
  | .file c _ m, p => .file c p m
  | .folder _ m, p => .folder p m

/-- The spread `{ ...entry, parent, mtime: now() }` used for the top-level
moved entry in `rename`. -/
def DBEntry.withParentMtime : DBEntry → List Char → Nat → DBEntry
  | .file c _ _, p, m => .file c p m
  | .folder _ _, p, m => .folder p m

/-- The IndexedDB object store `entries`: an association list from storage
keys to entries (keys are unique in every reachable store). -/
abbrev Store := List (List Char × DBEntry)

/-- `db.get(STORE_NAME, key)`. -/
def storeGet (st : Store) (k : List Char) : Option DBEntry :=
  match st with
  | [] => none
  | (k', v) :: rest => if k' = k then some v else storeGet rest k

/-- `db.put(STORE_NAME, value, key)`: replaces the binding at `k` if present,
otherwise appends it. -/
def storePut (st : Store) (k : List Char) (v : DBEntry) : Store :=
  match st with
  | [] => [(k, v)]
  | (k', v') :: rest => if k' = k then (k, v) :: rest else (k', v') :: storePut rest k v

/-- `store.delete(key)`. -/
def storeErase (st : Store) (k : List Char) : Store :=
  match st with
  | [] => []
  | (k', v') :: rest => if k' = k then rest else (k', v') :: storeErase rest k

/-- A cursor over the secondary index `by-parent` at key `k`: all entries
whose `parent` field equals `k`. -/
def childrenOf (st : Store) (k : List Char) : Store :=
  st.filter (fun kv => kv.2.parent == k)

/-- Watch event kinds (`src/api/watch-ops.ts`). -/
inductive EventType where
  | rename
  | change
deriving DecidableEq

/-- A watch event `{eventType, filename}` (`src/api/watch-ops.ts`). -/
structure WatchEvent where
  eventType : EventType
  filename : List Char
deriving DecidableEq

/-! ## `ensureParentDirs` from `src/lite-fs/core/db-entry.ts` -/

/-- The loop body of `ensureParentDirs`: walk the ancestor segments from the
root, creating each missing folder entry (collecting the created folder
paths) and failing `ENOTDIR` when an ancestor storage key holds a file. -/
def ensureParentDirsGo (t : Nat) (st : Store) (created : List (List Char))
    (curr : List Char) : List (List Char) → Except FSError (Store × List (List Char))
  | [] => .ok (st, created)
  | seg :: rest =>
    let currNext := curr ++ seg ++ ['/']
    match storeGet st (toStoragePath currNext) with
    | none =>
      let e := DBEntry.folder (toStoragePath (getParentPath currNext)) t
      ensureParentDirsGo t (storePut st (toStoragePath currNext) e) (created ++ [currNext])
        currNext rest
    | some e =>
      if e.isFolder then ensureParentDirsGo t st created currNext rest
      else .error ⟨.ENOTDIR, currNext.dropLast, "mkdir"⟩

/-- `ensureParentDirs(db, path)`: splits the path into non-empty segments,
drops the final one, and ensures every ancestor directory exists, returning
the list of newly created folder paths. -/
def ensureParentDirs (st : Store) (t : Nat) (path : List Char) :
    Except FSError (Store × List (List Char)) :=
  ensureParentDirsGo t st [] ['/']
    (((splitOnChar '/' path).filter (fun s => !s.isEmpty)).dropLast)

/-! ## File operations (`src/lite-fs/file-ops.ts`, event-emitting revision) -/

/-- `readFile(path)` (binary variant): validate as file kind, look the entry
up by storage key, fail `ENOENT` when absent and `EISDIR` on a folder. -/
def readFile (store : Store) (inPath : List Char) : Except FSError (List Nat) :=
  match validatePath inPath (some .file) with
  | .error e => .error e
  | .ok path =>
    match storeGet store (toStoragePath path) with
    | none => .error ⟨.ENOENT, path, "read"⟩
    | some (.folder _ _) => .error ⟨.EISDIR, path, "read"⟩
    | some (.file c _ _) => .ok c

/-- `writeFile(path, content)`: validate as file kind, ensure ancestors via
`ensureParentDirs`, then create or overwrite the file entry, emitting one
event at the target path — `change` when a file entry already existed there,
`rename` otherwise. -/
def writeFile (store : Store) (t : Nat) (inPath : List Char) (content : List Nat) :
    Except FSError (Store × List WatchEvent) :=
  match validatePath inPath (some .file) with
  | .error e => .error e
  | .ok path =>
    match ensureParentDirs store t path with
    | .error e => .error e
    | .ok (st1, _) =>
      let isNewFile :=
        match storeGet st1 (toStoragePath path) with
        | some (.file _ _ _) => false
        | _ => true
      let entry := DBEntry.file content (toStoragePath (getParentPath path)) t
      .ok (storePut st1 (toStoragePath path) entry,
        [⟨if isNewFile then .rename else .change, path⟩])

/-! ## Directory operations (`src/lite-fs/dir-ops.ts`) -/

/-- `MkdirOptions` (`recursive`, defaulting to `false` at call sites). -/
structure MkdirOptions where
  recursive : Bool
deriving DecidableEq

/-- `mkdir(path, options)`: root is a no-op; an existing entry succeeds as a
no-op iff `recursive` is set and the entry is a folder, else `EEXIST`;
recursive creation walks ancestors via `ensureParentDirs` and emits a
`rename` event per created directory and for the target; non-recursive
creation requires an existing folder parent. -/
def mkdir (store : Store) (t : Nat) (inPath : List Char) (opts : MkdirOptions) :
    Except FSError (Store × List WatchEvent) :=
  match validatePath inPath (some .folder) with
  | .error e => .error e
  | .ok path =>
    if path = ['/'] then .ok (store, [])
    else
      match storeGet store (toStoragePath path) with
      | some existing =>
        if opts.recursive && existing.isFolder then .ok (store, [])
        else .error ⟨.EEXIST, path, "mkdir"⟩
      | none =>
        if opts.recursive then
          match ensureParentDirs store t path with
          | .error e => .error e
          | .ok (st1, created) =>
            .ok (storePut st1 (toStoragePath path)
                  (DBEntry.folder (toStoragePath (getParentPath path)) t),
              created.map (fun d => ⟨.rename, d⟩) ++ [⟨.rename, path⟩])
        else
          let parentPath := getParentPath path
          if parentPath = ['/'] then
            .ok (storePut store (toStoragePath path)
                  (DBEntry.folder (toStoragePath (getParentPath path)) t),
              [⟨.rename, path⟩])
          else
            match storeGet store (toStoragePath parentPath) with
            | none => .error ⟨.ENOENT, parentPath, "mkdir"⟩
            | some parent =>
              if parent.isFolder then
                .ok (storePut store (toStoragePath path)
                      (DBEntry.folder (toStoragePath (getParentPath path)) t),
                  [⟨.rename, path⟩])
              else .error ⟨.ENOTDIR, parentPath.dropLast, "mkdir"⟩

/-! ## Stat (`src/lite-fs/stat-ops.ts`) -/

/-- The `Stats` record returned by `stat`. -/
structure Stats where
  isFile : Bool
  isDirectory : Bool
  mtime : Nat
deriving DecidableEq

/-- `stat(path)`: validate (either kind), look the entry up by storage key,
fail `ENOENT` when absent. -/
def stat (store : Store) (inPath : List Char) : Except FSError Stats :=
  match validatePath inPath none with
  | .error e => .error e
  | .ok path =>
    match storeGet store (toStoragePath path) with
    | none => .error ⟨.ENOENT, path, "stat"⟩
    | some e => .ok ⟨e.isFile, !e.isFile, e.mtime⟩

/-! ## Rename (`src/lite-fs/rename-ops.ts`) -/

/-- One element of the `items_to_move` array built by `rename`: the old
storage key, the new storage key, and the entry to store under the new key. -/
structure MoveItem where
  oldKey : List Char
  newKey : List Char
  entry : DBEntry
deriving DecidableEq

/-- The body of the child-collection step of `rename`: for every index entry
whose parent is the processed item's old key, compute the child's name
(appending `/` for folders before taking the base name), its new path under
the processed item's new key, and re-parent the entry. -/
def childMoveItems (it : MoveItem) (children : Store) : List MoveItem :=
  children.map (fun kv =>
    let childName := getBaseName (kv.1 ++ (if kv.2.isFolder then ['/'] else []))
    let childNewPath :=
      if it.newKey = ['/'] then '/' :: childName else it.newKey ++ '/' :: childName
    ⟨kv.1, toStoragePath childNewPath, kv.2.withParent it.newKey⟩)

/-- The worklist loop of step 4 of `rename` (`for i = 0; i < items.length`):
process items in order, appending the children of each folder item; carried
out with fuel, which the caller sets large enough for the collection to
complete on any store the loop terminates on. -/
def renameCollect (store : Store) : Nat → List MoveItem → List MoveItem → List MoveItem
  | 0, pending, acc => acc ++ pending
  | _ + 1, [], acc => acc
  | fuel + 1, it :: rest, acc =>
    if it.entry.isFolder then
      renameCollect store fuel (rest ++ childMoveItems it (childrenOf store it.oldKey))
        (acc ++ [it])
    else
      renameCollect store fuel rest (acc ++ [it])

/-- `rename(oldPath, newPath)` from `src/lite-fs/rename-ops.ts`: the
validation gates (no-op on equal paths, root rejection, trailing-separator
type pre-check, subtree self-containment check, source existence, target
parent existence and kind, destination overwrite rules), then the collection
of the moved subtree and the delete-all/put-all re-key.  The source emits no
watch events, which the empty event list records. -/
def rename (store : Store) (t : Nat) (oldIn newIn : List Char) :
    Except FSError (Store × List WatchEvent) := do
  let oldPath ← validatePath oldIn none
  let newPath ← validatePath newIn none
  if oldPath = newPath then return (store, [])
  if oldPath = ['/'] then throw ⟨.EINVAL, oldPath, "rename"⟩
  if newPath = ['/'] then throw ⟨.EINVAL, newPath, "rename"⟩
  if !isFolderPath oldPath && isFolderPath newPath then throw ⟨.EISDIR, newPath, "rename"⟩
  if isFolderPath oldPath && !isFolderPath newPath then throw ⟨.ENOTDIR, newPath, "rename"⟩
  let oldPref := if endsWithChar '/' oldPath then oldPath else oldPath ++ ['/']
  if startsWithList oldPref newPath then throw ⟨.EINVAL, newPath, "rename"⟩
  let oldKey := toStoragePath oldPath
  let newKey := toStoragePath newPath
  let sourceEntry ←
    match storeGet store oldKey with
    | none => throw ⟨.ENOENT, oldPath, "rename"⟩
    | some e => pure e
  let targetParentPath := getParentPath newPath
  let targetParentKey := toStoragePath targetParentPath
  if targetParentPath ≠ ['/'] then
    match storeGet store targetParentKey with
    | none => throw ⟨.ENOENT, targetParentPath, "rename"⟩
    | some tp => if !tp.isFolder then throw ⟨.ENOTDIR, targetParentPath, "rename"⟩ else pure ()
  match storeGet store newKey with
  | some existingTarget =>
    if sourceEntry.isFile && existingTarget.isFolder then throw ⟨.EISDIR, newPath, "rename"⟩
    else if sourceEntry.isFolder && existingTarget.isFile then
      throw ⟨.ENOTDIR, newPath, "rename"⟩
    else if sourceEntry.isFile ≠ existingTarget.isFile then throw ⟨.EINVAL, newPath, "rename"⟩
    else if existingTarget.isFolder && !(childrenOf store newKey).isEmpty then
      throw ⟨.ENOTEMPTY, newPath, "rename"⟩
    else pure ()
  | none => pure ()
  let items := renameCollect store (store.length + 1)
    [⟨oldKey, newKey, sourceEntry.withParentMtime targetParentKey t⟩] []
  let st1 := items.foldl (fun st it => storeErase st it.oldKey) store
  let st2 := items.foldl (fun st it => storePut st it.newKey it.entry) st1
  return (st2, [])

/-! ## Watch (`src/lite-fs/watch-ops.ts`, implemented revision) -/

/-- The `shouldEmit` filter inside `watch`: deliver an event iff its path
equals the watched path, or the watched path is a folder path and the
event path's immediate parent equals it. -/
def shouldEmit (watchPath : List Char) (e : WatchEvent) : Bool :=
  if e.filename = watchPath then true
  else if isFolderPath watchPath then decide (getParentPath e.filename = watchPath)
  else false

/-- The mutable closure state of one `watch` iterator: the backlog `queue`,
whether a `next()` promise is blocked (`resolveNext` non-null), the `done`
flag, and whether the bus callback is still subscribed. -/
structure WatchState where
  queue : List WatchEvent
  pending : Bool
  done : Bool
  subscribed : Bool
deriving DecidableEq

/-- A result surfaced to a consumer of the iterator. -/
inductive IterRes where
  | ended
  | val (e : WatchEvent)
deriving DecidableEq

/-- The observable output of one interaction with the iterator:
`resolvedPending` is the value given to a previously blocked `next()`
promise, `ret` the immediate result of the call itself (`none` when a
`next()` blocks). -/
structure WOut where
  resolvedPending : Option IterRes
  ret : Option IterRes
deriving DecidableEq

/-- The four interactions with a `watch` iterator: a bus event reaching the
subscription callback, a `next()` call, the abort signal firing, and a
`return()` call. -/
inductive WAction where
  | deliver (e : WatchEvent)
  | next
  | abort
  | ret
deriving DecidableEq

/-- The state of a freshly created watcher: when the signal is already
aborted at subscribe time, `cleanup()` runs immediately (done, unsubscribed);
otherwise the watcher starts live with an empty queue. -/
def subscribeInit (alreadyAborted : Bool) : WatchState :=
  if alreadyAborted then ⟨[], false, true, false⟩ else ⟨[], false, false, true⟩

/-- One step of the `watch` iterator, mirroring the closure in
`src/lite-fs/watch-ops.ts`:
the subscription callback filters by `shouldEmit`, resolves a blocked
`next()` if present, else queues; `next()` returns `done` immediately when
the stream ended, else pops the queue, else blocks; the abort listener runs
`cleanup()` and resolves a blocked `next()` with `done`; `return()` runs
`cleanup()` and returns `done` without touching a blocked `next()`. -/
def stepW (watchPath : List Char) (s : WatchState) : WAction → WatchState × WOut
  | .deliver e =>
    if !s.subscribed then (s, ⟨none, none⟩)
    else if !shouldEmit watchPath e then (s, ⟨none, none⟩)
    else if s.pending then (⟨s.queue, false, s.done, s.subscribed⟩, ⟨some (.val e), none⟩)
    else (⟨s.queue ++ [e], s.pending, s.done, s.subscribed⟩, ⟨none, none⟩)
  | .next =>
    if s.done then (s, ⟨none, some .ended⟩)
    else
      match s.queue with
      | e :: rest => (⟨rest, s.pending, s.done, s.subscribed⟩, ⟨none, some (.val e)⟩)
      | [] => (⟨[], true, s.done, s.subscribed⟩, ⟨none, none⟩)
  | .abort =>
    if s.pending then (⟨s.queue, false, true, false⟩, ⟨some .ended, none⟩)
    else (⟨s.queue, s.pending, true, false⟩, ⟨none, none⟩)
  | .ret => (⟨s.queue, s.pending, true, false⟩, ⟨none, some .ended⟩)

/-- Run a sequence of interactions against a watcher, collecting each step's
observable output alongside the action that produced it. -/
def runW (watchPath : List Char) (s : WatchState) :
    List WAction → WatchState × List (WAction × WOut)
  | [] => (s, [])
  | a :: as =>
    let r := stepW watchPath s a
    let rest := runW watchPath r.1 as
    (rest.1, (a, r.2) :: rest.2)

/-- No output component carries an event value. -/
def outNoValue (o : WOut) : Prop :=
  (∀ e, o.resolvedPending ≠ some (.val e)) ∧ (∀ e, o.ret ≠ some (.val e))

/-- The kind of the single event `writeFile` emits at the target path, as a
function of the store it inspects after `ensureParentDirs`: `change` when a
file entry already occupies the target storage key, `rename` otherwise. -/
def targetEventKind (st : Store) (key : List Char) : EventType :=
  match storeGet st key with
  | some (.file _ _ _) => .change
  | _ => .rename

/-- Concrete store holding `/parent/child/file.txt` (bytes `[104, 105]`,
all mtimes 1), exactly as `writeFile` builds it from an empty store. -/
def renameDemoStore1 : Store :=
  [(("/parent").toList, .folder (("/").toList) 1),
   (("/parent/child").toList, .folder (("/parent").toList) 1),
   (("/parent/child/file.txt").toList, .file [104, 105] (("/parent/child").toList) 1)]

/-- The store after `rename("/parent/", "/moved/")` at time 2 on
`renameDemoStore1`. -/
def renameDemoStore2 : Store :=
  [(("/moved").toList, .folder (("/").toList) 2),
   (("/moved/child").toList, .folder (("/moved").toList) 1),
   (("/moved/child/file.txt").toList, .file [104, 105] (("/moved/child").toList) 1)]

/-- A store in which the storage key `/a` holds a folder entry that has one
child file `/a/f`. -/
def folderClashStore : Store :=
  [(("/a").toList, .folder (("/").toList) 5),
   (("/a/f").toList, .file [9] (("/a").toList) 5)]

/-- Substitute the destination key prefix for the source key prefix in a
storage key (the claimed new-key computation of `rename`). -/
def substKey (oldKey newKey k : List Char) : List Char :=
  newKey ++ k.drop oldKey.length

/-- Well-formedness of a store, as established by the creation operations:
every entry's storage key is its parent key extended by one non-empty,
separator-free name (with the root parent `/` contributing only its
separator). -/
def WFStore (store : Store) : Prop :=
  ∀ kv : List Char × DBEntry, kv ∈ store → ∃ name : List Char,
    name ≠ [] ∧ '/' ∉ name ∧
    kv.1 = (if kv.2.parent = ['/'] then '/' :: name else kv.2.parent ++ '/' :: name)

/-- What claim C2 asserts of every element of the moved-items list built by
`rename` for source key `oldKey`, destination key `newKey`, destination
parent key `tpk` and source entry `src` at time `t`: the new storage key is
the old key with the destination prefix substituted for the source prefix,
and the stored entry is the source entry re-parented with a fresh mtime (for
the top-level item) or an existing store entry re-parented with its mtime
preserved (for every descendant). -/
def MovedSpec (store : Store) (oldKey newKey tpk : List Char) (src : DBEntry) (t : Nat)
    (it : MoveItem) : Prop :=
  ∃ s : List Char, it.oldKey = oldKey ++ s ∧ it.newKey = newKey ++ s ∧
    ((s = [] ∧ it.entry = src.withParentMtime tpk t) ∨
     (∃ e : DBEntry, (it.oldKey, e) ∈ store ∧ s.head? = some '/' ∧
       it.entry = e.withParent (substKey oldKey newKey e.parent) ∧
       it.entry.mtime = e.mtime))

/-! # Helper lemmas -/

theorem storeGet_put_self (st : Store) (k : List Char) (v : DBEntry) :
    storeGet (storePut st k v) k = some v := by
  induction st with
  | nil => simp [storePut, storeGet]
  | cons kv rest ih =>
    obtain ⟨k', v'⟩ := kv
    by_cases h : k' = k
    · simp [storePut, h, storeGet]
    · simp [storePut, h, storeGet, ih]

theorem validatePath_ok_eq {p q : List Char} {k : Option PathKind}
    (h : validatePath p k = .ok q) : q = p := by
  unfold validatePath at h
  split at h
  · cases h
  · split at h
    · cases h
    · split at h
      · cases h
      · split at h
        · injection h with h
          exact h.symm
        · cases h

theorem validatePath_ok_parts {p q : List Char} {k : Option PathKind}
    (h : validatePath p k = .ok q) :
    p.head? = some '/' ∧ validSegs ((splitOnChar '/' p).drop 1) = true := by
  unfold validatePath at h
  split at h
  · cases h
  · rename_i hhead
    split at h
    · cases h
    · split at h
      · cases h
      · split at h
        · rename_i hsegs
          exact ⟨not_not.mp hhead, by simpa using hsegs⟩
        · cases h

theorem endsWith_decomp (c : Char) (l : List Char) (h : endsWithChar c l = true) :
    l = l.dropLast ++ [c] := by
  induction l with
  | nil => simp [endsWithChar] at h
  | cons x xs ih =>
    cases xs with
    | nil =>
      simp only [endsWithChar, List.getLast?_singleton, decide_eq_true_eq,
        Option.some.injEq] at h
      simp [h]
    | cons y ys =>
      have h' : endsWithChar c (y :: ys) = true := by
        simpa [endsWithChar, List.getLast?_cons_cons] using h
      have ih' := ih h'
      calc x :: y :: ys = x :: ((y :: ys).dropLast ++ [c]) := by rw [← ih']
        _ = (x :: y :: ys).dropLast ++ [c] := rfl

theorem split_ne_nil (c : Char) (l : List Char) : splitOnChar c l ≠ [] := by
  cases l with
  | nil => simp [splitOnChar]
  | cons x xs =>
    unfold splitOnChar
    cases splitOnChar c xs with
    | nil => simp
    | cons s rest => by_cases hx : x = c <;> simp [hx]

theorem split_append_sep (c : Char) (xs : List Char) :
    splitOnChar c (xs ++ [c]) = splitOnChar c xs ++ [[]] := by
  induction xs with
  | nil => simp [splitOnChar]
  | cons x xs ih =>
    rw [List.cons_append]
    unfold splitOnChar
    rw [ih]
    cases hs : splitOnChar c xs with
    | nil => exact absurd hs (split_ne_nil c xs)
    | cons s rest => by_cases hx : x = c <;> simp [hx]

theorem validSegs_double_nil (ss : List (List Char)) :
    validSegs (ss ++ [[], []]) = false := by
  induction ss with
  | nil => rfl
  | cons s ss ih =>
    cases hss : ss ++ [[], []] with
    | nil => simp at hss
    | cons r rs =>
      rw [List.cons_append, hss]
      show (!(s == []) && !(s == ['.']) && !(s == ['.', '.']) && validSegs (r :: rs)) = false
      rw [← hss, ih]
      simp

theorem validSegs_of_append_nil (ss : List (List Char))
    (h : validSegs (ss ++ [[]]) = true) : validSegs ss = true := by
  induction ss with
  | nil => rfl
  | cons s ss ih =>
    cases ss with
    | nil =>
      revert h
      show (!(s == []) && !(s == ['.']) && !(s == ['.', '.']) && validSegs [[]]) = true →
        validSegs [s] = true
      intro h
      simp only [Bool.and_eq_true] at h
      show (!(s == ['.']) && !(s == ['.', '.'])) = true
      simp only [Bool.and_eq_true]
      exact ⟨h.1.1.2, h.1.2⟩
    | cons s2 ss2 =>
      rw [List.cons_append] at h
      have h' : (!(s == []) && !(s == ['.']) && !(s == ['.', '.']) &&
          validSegs ((s2 :: ss2) ++ [[]])) = true := h
      simp only [Bool.and_eq_true] at h'
      show (!(s == []) && !(s == ['.']) && !(s == ['.', '.']) && validSegs (s2 :: ss2)) = true
      simp only [Bool.and_eq_true]
      exact ⟨h'.1, ih h'.2⟩

theorem joinGo_reset (p : List Char) (rs : List (List Char))
    (f : List (List Char)) (fn : Option (List Char)) (h : p.head? = some '/') :
    joinGo f fn (p :: rs) = joinGo [] none (p :: rs) := by
  simp [joinGo, h]

theorem joinGo_reset_append (ps : List (List Char)) (f : List (List Char))
    (fn : Option (List Char)) (p : List Char) (rs : List (List Char))
    (h : p.head? = some '/') :
    joinGo f fn (ps ++ p :: rs) = joinGo [] none (p :: rs) := by
  induction ps generalizing f fn with
  | nil => simpa using joinGo_reset p rs f fn h
  | cons x ps ih =>
    rw [List.cons_append]
    simp only [joinGo]
    exact ih _ _

theorem lastIndexOf_not_mem (c : Char) (l : List Char) (h : c ∉ l) :
    lastIndexOfChar c l = none := by
  induction l with
  | nil => rfl
  | cons x xs ih =>
    simp only [List.mem_cons, not_or] at h
    unfold lastIndexOfChar
    rw [ih h.2]
    simp [Ne.symm h.1]

theorem lastIndexOf_append_sep (c : Char) (p name : List Char) (h : c ∉ name) :
    lastIndexOfChar c (p ++ c :: name) = some p.length := by
  induction p with
  | nil =>
    rw [List.nil_append]
    unfold lastIndexOfChar
    rw [lastIndexOf_not_mem c name h]
    simp
  | cons x xs ih =>
    rw [List.cons_append]
    unfold lastIndexOfChar
    rw [ih]
    simp

theorem getLast?_cons_ne_nil (c : Char) (name : List Char) (hn : name ≠ []) :
    (c :: name).getLast? = name.getLast? := by
  cases name with
  | nil => exact absurd rfl hn
  | cons n0 ns => exact List.getLast?_cons_cons

theorem endsWith_append_name (q name : List Char) (hn : name ≠ []) (hs : '/' ∉ name) :
    endsWithChar '/' (q ++ '/' :: name) = false := by
  unfold endsWithChar
  rw [List.getLast?_append]
  rw [getLast?_cons_ne_nil '/' name hn]
  rw [List.getLast?_eq_getLast _ hn]
  have hor : (some (name.getLast hn)).or q.getLast? = some (name.getLast hn) := by simp
  rw [hor]
  simp only [decide_eq_false_iff_not, Option.some.injEq]
  intro heq
  exact hs (heq ▸ List.getLast_mem hn)

theorem key_append_ne_root (p name : List Char) (hp : 1 ≤ p.length) (hn : name ≠ []) :
    p ++ '/' :: name ≠ ['/'] := by
  intro h0
  cases p with
  | nil => simp at hp
  | cons x xs =>
    rw [List.cons_append] at h0
    injection h0 with h1 h2
    exact absurd h2 (by simp)

theorem getBaseName_key (p name : List Char) (hp : 1 ≤ p.length) (hn : name ≠ [])
    (hs : '/' ∉ name) : getBaseName (p ++ '/' :: name) = name := by
  have hne := key_append_ne_root p name hp hn
  have hend := endsWith_append_name p name hn hs
  have hidx := lastIndexOf_append_sep '/' p name hs
  have hdrop : (p ++ '/' :: name).drop (p.length + 1) = name := by
    rw [show p ++ '/' :: name = (p ++ ['/']) ++ name by simp]
    rw [show p.length + 1 = (p ++ ['/']).length by simp]
    exact List.drop_left _ _
  unfold getBaseName
  rw [if_neg hne, hend]
  simp only [Bool.false_eq_true, if_false, hidx, hdrop]

theorem getBaseName_strip (Y : List Char) (h0 : Y ≠ ['/']) (h1 : Y ++ ['/'] ≠ ['/'])
    (h2 : endsWithChar '/' Y = false) : getBaseName (Y ++ ['/']) = getBaseName Y := by
  have hend : endsWithChar '/' (Y ++ ['/']) = true := by
    unfold endsWithChar
    rw [List.getLast?_append]
    simp
  have hdl : (Y ++ ['/']).dropLast = Y := List.dropLast_concat
  unfold getBaseName
  rw [if_neg h1, if_neg h0, hend, h2, hdl]
  simp

theorem getBaseName_key_folder (p name : List Char) (hp : 1 ≤ p.length) (hn : name ≠ [])
    (hs : '/' ∉ name) : getBaseName ((p ++ '/' :: name) ++ ['/']) = name := by
  have hne := key_append_ne_root p name hp hn
  have hne2 : (p ++ '/' :: name) ++ ['/'] ≠ ['/'] := by
    intro h0
    cases p with
    | nil => simp at hp
    | cons x xs =>
      rw [List.cons_append, List.cons_append] at h0
      injection h0 with h1 h2
      exact absurd h2 (by simp)
  rw [getBaseName_strip _ hne hne2 (endsWith_append_name p name hn hs)]
  exact getBaseName_key p name hp hn hs

theorem toStoragePath_no_sep (l : List Char) (h1 : l ≠ ['/'])
    (h2 : endsWithChar '/' l = false) : toStoragePath l = l := by
  simp [toStoragePath, h1, h2]

theorem withParent_mtime (e : DBEntry) (p : List Char) :
    (e.withParent p).mtime = e.mtime := by
  cases e <;> rfl

theorem head?_append_sep (s name : List Char)
    (h : s = [] ∨ s.head? = some '/') : (s ++ '/' :: name).head? = some '/' := by
  rcases h with h | h
  · rw [h]; rfl
  · cases s with
    | nil => rfl
    | cons a as => simpa using h

theorem childMoveItems_spec (it0 : MoveItem) (children : Store) (x : MoveItem)
    (hx : x ∈ childMoveItems it0 children) :
    ∃ kv ∈ children,
      x = ⟨kv.1,
           toStoragePath
             (if it0.newKey = ['/'] then
                '/' :: getBaseName (kv.1 ++ (if kv.2.isFolder then ['/'] else []))
              else it0.newKey ++ '/' ::
                getBaseName (kv.1 ++ (if kv.2.isFolder then ['/'] else []))),
           kv.2.withParent it0.newKey⟩ := by
  simp only [childMoveItems, List.mem_map] at hx
  obtain ⟨kv, h1, h2⟩ := hx
  exact ⟨kv, h1, h2.symm⟩

theorem renameCollect_sound
    (store : Store) (oldKey newKey tpk : List Char) (src : DBEntry) (t : Nat)
    (hwf : WFStore store) (ho : 2 ≤ oldKey.length) (hnk : 2 ≤ newKey.length) :
    ∀ (fuel : Nat) (pending acc : List MoveItem),
      (∀ it ∈ pending, MovedSpec store oldKey newKey tpk src t it) →
      (∀ it ∈ acc, MovedSpec store oldKey newKey tpk src t it) →
      ∀ it ∈ renameCollect store fuel pending acc,
        MovedSpec store oldKey newKey tpk src t it := by
  intro fuel
  induction fuel with
  | zero =>
    intro pending acc hp ha it hit
    simp only [renameCollect] at hit
    rcases List.mem_append.mp hit with h | h
    · exact ha it h
    · exact hp it h
  | succ n ih =>
    intro pending acc hp ha it hit
    cases pending with
    | nil =>
      simp only [renameCollect] at hit
      exact ha it hit
    | cons it0 rest =>
      have hit0 := hp it0 (List.mem_cons_self it0 rest)
      have hacc' : ∀ x ∈ acc ++ [it0], MovedSpec store oldKey newKey tpk src t x := by
        intro x hx
        rcases List.mem_append.mp hx with h | h
        · exact ha x h
        · rw [List.mem_singleton] at h
          subst h
          exact hit0
      by_cases hf : it0.entry.isFolder = true
      · have hstep : renameCollect store (n + 1) (it0 :: rest) acc =
            renameCollect store n
              (rest ++ childMoveItems it0 (childrenOf store it0.oldKey)) (acc ++ [it0]) := by
          simp only [renameCollect]
          rw [if_pos hf]
        rw [hstep] at hit
        refine ih _ _ ?_ hacc' it hit
        intro x hx
        rcases List.mem_append.mp hx with h | h
        · exact hp x (List.mem_cons_of_mem _ h)
        · obtain ⟨s0, hs0old, hs0new, hcase⟩ := hit0
          have hs0head : s0 = [] ∨ s0.head? = some '/' := by
            rcases hcase with ⟨h1, _⟩ | ⟨e, _, hh, _, _⟩
            · exact Or.inl h1
            · exact Or.inr hh
          obtain ⟨kv, hkvmem, hkveq⟩ := childMoveItems_spec _ _ _ h
          have hkvmem' := List.mem_filter.mp hkvmem
          have hkvstore : kv ∈ store := hkvmem'.1
          have hkvparent : kv.2.parent = it0.oldKey := by simpa using hkvmem'.2
          obtain ⟨name, hname_ne, hname_ns, hkey⟩ := hwf kv hkvstore
          rw [hkvparent] at hkey
          have hit0OldLen : 1 ≤ it0.oldKey.length := by
            rw [hs0old, List.length_append]
            omega
          have hit0OldNeRoot : it0.oldKey ≠ ['/'] := by
            intro h0
            have hlen := congrArg List.length h0
            rw [hs0old, List.length_append] at hlen
            simp only [List.length_cons, List.length_nil] at hlen
            omega
          rw [if_neg hit0OldNeRoot] at hkey
          have hit0NewNeRoot : it0.newKey ≠ ['/'] := by
            intro h0
            have hlen := congrArg List.length h0
            rw [hs0new, List.length_append] at hlen
            simp only [List.length_cons, List.length_nil] at hlen
            omega
          have hbase : getBaseName (kv.1 ++ (if kv.2.isFolder then ['/'] else [])) = name := by
            by_cases hkf : kv.2.isFolder = true
            · rw [if_pos hkf, hkey]
              exact getBaseName_key_folder it0.oldKey name hit0OldLen hname_ne hname_ns
            · rw [if_neg hkf, List.append_nil, hkey]
              exact getBaseName_key it0.oldKey name hit0OldLen hname_ne hname_ns
          rw [hbase, if_neg hit0NewNeRoot] at hkveq
          have hstor : toStoragePath (it0.newKey ++ '/' :: name) = it0.newKey ++ '/' :: name := by
            refine toStoragePath_no_sep _ ?_ (endsWith_append_name _ _ hname_ne hname_ns)
            refine key_append_ne_root _ _ ?_ hname_ne
            rw [hs0new, List.length_append]
            omega
          rw [hstor] at hkveq
          refine ⟨s0 ++ '/' :: name, ?_, ?_, Or.inr ⟨kv.2, ?_, ?_, ?_, ?_⟩⟩
          · rw [hkveq]
            show kv.1 = oldKey ++ (s0 ++ '/' :: name)
            rw [hkey, hs0old, List.append_assoc]
          · rw [hkveq]
            show it0.newKey ++ '/' :: name = newKey ++ (s0 ++ '/' :: name)
            rw [hs0new, List.append_assoc]
          · rw [hkveq]
            show (kv.1, kv.2) ∈ store
            exact hkvstore
          · exact head?_append_sep s0 name hs0head
          · rw [hkveq]
            show kv.2.withParent it0.newKey =
              kv.2.withParent (substKey oldKey newKey kv.2.parent)
            have hsub : substKey oldKey newKey kv.2.parent = it0.newKey := by
              rw [hkvparent, hs0old]
              unfold substKey
              rw [List.drop_left]
              exact hs0new.symm
            rw [hsub]
          · rw [hkveq]
            show (kv.2.withParent it0.newKey).mtime = kv.2.mtime
            exact withParent_mtime kv.2 it0.newKey
      · have hstep : renameCollect store (n + 1) (it0 :: rest) acc =
            renameCollect store n rest (acc ++ [it0]) := by
          simp only [renameCollect]
          rw [if_neg hf]
        rw [hstep] at hit
        exact ih _ _ (fun x hx => hp x (List.mem_cons_of_mem _ hx)) hacc' it hit

/-! # Claim theorems -/

/-- C1: for every store, time, valid absolute file path and byte content
(empty content and arbitrary byte values included), a successful
`writeFile(P, C)` followed by `readFile(P)` returns exactly `C`,
byte for byte. -/
theorem writeFile_readFile_roundtrip (store : Store) (t : Nat) (p : List Char)
    (c : List Nat) (st2 : Store) (evs : List WatchEvent)
    (h : writeFile store t p c = .ok (st2, evs)) : readFile st2 p = .ok c := by
  unfold writeFile at h
  split at h
  · cases h
  · rename_i path hv
    have hp : p = path := (validatePath_ok_eq hv).symm
    split at h
    · cases h
    · rename_i r st1 cr he
      simp only [Except.ok.injEq, Prod.mk.injEq] at h
      obtain ⟨h1, _⟩ := h
      subst hp
      have h1s : st2 = storePut st1 (toStoragePath p)
        (DBEntry.file c (toStoragePath (getParentPath p)) t) := h1.symm
      simp [readFile, hv, h1s, storeGet_put_self]

/-- Witness for C1: a concrete write of empty content to `/f` on the empty
store, read back as exactly the empty byte sequence. -/
theorem writeFile_readFile_roundtrip_witness :
    readFile [((("/f").toList), DBEntry.file [] (("/").toList) 0)] (("/f").toList) =
      .ok [] :=
  writeFile_readFile_roundtrip [] 0 (("/f").toList) []
    [((("/f").toList), DBEntry.file [] (("/").toList) 0)]
    [⟨.rename, ("/f").toList⟩] (by rfl)

/-- C3 (failing input): `rename("/old.txt", "/new.txt")` on a store holding
the file `/old.txt` succeeds, moves the entry — and emits no watch event at
all (the event list is empty), where the claim requires exactly two rename
events, one for the old and one for the new path. -/
theorem rename_emits_no_events :
    rename [((("/old.txt").toList), DBEntry.file [9] (("/").toList) 0)] 5
        (("/old.txt").toList) (("/new.txt").toList) =
      .ok ([((("/new.txt").toList), DBEntry.file [9] (("/").toList) 5)], []) := by
  rfl

/-- C4 (counterexample): on the empty store, `writeFile("/a/b.txt", [1])`
does create the missing ancestor directory `/a/` — yet the complete emitted
event list is the single `rename` event for the target `/a/b.txt`, with no
event for the newly created ancestor, contrary to the claim. -/
theorem writeFile_ancestor_events_cex :
    writeFile [] 0 (("/a/b.txt").toList) [1] =
      .ok ([((("/a").toList), DBEntry.folder (("/").toList) 0),
            ((("/a/b.txt").toList), DBEntry.file [1] (("/a").toList) 0)],
           [⟨.rename, ("/a/b.txt").toList⟩]) := by
  rfl

/-- C4 (amended): a successful `writeFile` first runs the same
`ensureParentDirs` helper that recursive `mkdir` uses to create the missing
ancestor directories, then overwrites the target entry wholesale; it emits
exactly one event, at the target path — `change` when a file entry already
existed at the target storage key, `rename` otherwise — and no events for
created ancestors. -/
theorem writeFile_single_target_event (store : Store) (t : Nat) (p : List Char)
    (c : List Nat) (st2 : Store) (evs : List WatchEvent)
    (h : writeFile store t p c = .ok (st2, evs)) :
    ∃ st1 created, ensureParentDirs store t p = .ok (st1, created) ∧
      st2 = storePut st1 (toStoragePath p)
        (DBEntry.file c (toStoragePath (getParentPath p)) t) ∧
      evs = [⟨targetEventKind st1 (toStoragePath p), p⟩] := by
  unfold writeFile at h
  split at h
  · cases h
  · rename_i path hv
    have hp : p = path := (validatePath_ok_eq hv).symm
    split at h
    · cases h
    · rename_i r st1 cr he
      simp only [Except.ok.injEq, Prod.mk.injEq] at h
      obtain ⟨h1, h2⟩ := h
      subst hp
      refine ⟨st1, cr, he, h1.symm, ?_⟩
      rw [← h2]
      unfold targetEventKind
      cases hg : storeGet st1 (toStoragePath p) with
      | none => simp [hg]
      | some e => cases e <;> simp [hg]

/-- Witness for C4's amended statement: the concrete write from the
counterexample, decomposed as the amended claim describes. -/
theorem writeFile_single_target_event_witness :
    ∃ st1 created, ensureParentDirs [] 0 (("/a/b.txt").toList) = .ok (st1, created) ∧
      [((("/a").toList), DBEntry.folder (("/").toList) 0),
       ((("/a/b.txt").toList), DBEntry.file [1] (("/a").toList) 0)] =
        storePut st1 (toStoragePath (("/a/b.txt").toList))
          (DBEntry.file [1] (toStoragePath (getParentPath (("/a/b.txt").toList))) 0) ∧
      [(⟨.rename, ("/a/b.txt").toList⟩ : WatchEvent)] =
        [⟨targetEventKind st1 (toStoragePath (("/a/b.txt").toList)), ("/a/b.txt").toList⟩] :=
  writeFile_single_target_event [] 0 (("/a/b.txt").toList) [1]
    [((("/a").toList), DBEntry.folder (("/").toList) 0),
     ((("/a/b.txt").toList), DBEntry.file [1] (("/a").toList) 0)]
    [⟨.rename, ("/a/b.txt").toList⟩] (by rfl)

/-- C5 (counterexample): with a folder entry stored at key `/a` (which has a
child `/a/f`), `writeFile("/a", [1])` succeeds and silently replaces the
folder entry with the new file entry — no existence check guards the target,
contrary to the claim. -/
theorem writeFile_replaces_folder_cex :
    writeFile folderClashStore 7 (("/a").toList) [1] =
      .ok ([((("/a").toList), DBEntry.file [1] (("/").toList) 7),
            ((("/a/f").toList), DBEntry.file [9] (("/a").toList) 5)],
           [⟨.rename, ("/a").toList⟩]) := by
  rfl

/-- C5 (amended): a file and a folder can never simultaneously occupy the
same name in a parent, because both map to the same storage key; `mkdir`
does check — with an entry already present it either no-ops or fails
`EEXIST`, never modifying the store — but `writeFile` performs no type check
at the target: after any successful write the target storage key holds the
new file entry, silently replacing whatever entry (including a folder) was
stored there. -/
theorem creation_checks_amended :
    (∀ (store : Store) (t : Nat) (q : List Char) (opts : MkdirOptions) (e : DBEntry),
      validatePath q (some .folder) = .ok q → q ≠ ['/'] →
      storeGet store (toStoragePath q) = some e →
      mkdir store t q opts = .ok (store, []) ∨
        mkdir store t q opts = .error ⟨.EEXIST, q, "mkdir"⟩) ∧
    (∀ (store : Store) (t : Nat) (p : List Char) (c : List Nat) (st2 : Store)
      (evs : List WatchEvent), writeFile store t p c = .ok (st2, evs) →
      storeGet st2 (toStoragePath p) =
        some (DBEntry.file c (toStoragePath (getParentPath p)) t)) := by
  constructor
  · intro store t q opts e hv hroot hget
    unfold mkdir
    rw [hv]
    simp only [hroot, if_false, hget]
    by_cases h : (opts.recursive && e.isFolder) = true
    · left; simp [h]
    · right; simp [h]
  · intro store t p c st2 evs h
    unfold writeFile at h
    split at h
    · cases h
    · rename_i path hv
      have hp : p = path := (validatePath_ok_eq hv).symm
      split at h
      · cases h
      · rename_i r st1 cr he
        simp only [Except.ok.injEq, Prod.mk.injEq] at h
        obtain ⟨h1, _⟩ := h
        subst hp
        rw [← h1, storeGet_put_self]

/-- Witness for C5's amended statement: `mkdir` over an existing folder with
`recursive` refuses to modify the store (no-op success), and the
counterexample write indeed leaves the file entry at the clashing key. -/
theorem creation_checks_amended_witness :
    (mkdir folderClashStore 9 (("/a/").toList) ⟨true⟩ = .ok (folderClashStore, []) ∨
      mkdir folderClashStore 9 (("/a/").toList) ⟨true⟩ =
        .error ⟨.EEXIST, ("/a/").toList, "mkdir"⟩) ∧
    storeGet [((("/a").toList), DBEntry.file [1] (("/").toList) 7),
              ((("/a/f").toList), DBEntry.file [9] (("/a").toList) 5)]
        (toStoragePath (("/a").toList)) =
      some (DBEntry.file [1] (toStoragePath (getParentPath (("/a").toList))) 7) :=
  ⟨creation_checks_amended.1 folderClashStore 9 (("/a/").toList) ⟨true⟩
      (DBEntry.folder (("/").toList) 5) (by rfl) (by decide) (by rfl),
   creation_checks_amended.2 folderClashStore 7 (("/a").toList) [1]
      [((("/a").toList), DBEntry.file [1] (("/").toList) 7),
       ((("/a/f").toList), DBEntry.file [9] (("/a").toList) 5)]
      [⟨.rename, ("/a").toList⟩] (by rfl)⟩

/-- C8: when an entry already exists at the (validated, non-root) folder
path, `mkdir` succeeds as a no-op — returning the unchanged store and no
events — precisely when `recursive` is set and the existing entry is a
folder, and fails `AlreadyExists` in every other case. -/
theorem mkdir_existing_entry (store : Store) (t : Nat) (q : List Char)
    (opts : MkdirOptions) (e : DBEntry)
    (hv : validatePath q (some .folder) = .ok q) (hroot : q ≠ ['/'])
    (hget : storeGet store (toStoragePath q) = some e) :
    mkdir store t q opts =
      (if opts.recursive && e.isFolder then .ok (store, [])
       else .error ⟨.EEXIST, q, "mkdir"⟩) := by
  unfold mkdir
  rw [hv]
  simp only [hroot, if_false, hget]

/-- Witness for C8: a concrete store with a folder at `/d`; recursive mkdir
over it is a no-op success. -/
theorem mkdir_existing_entry_witness :
    mkdir [((("/d").toList), DBEntry.folder (("/").toList) 1)] 9 (("/d/").toList) ⟨true⟩ =
      .ok ([((("/d").toList), DBEntry.folder (("/").toList) 1)], []) := by
  have h := mkdir_existing_entry [((("/d").toList), DBEntry.folder (("/").toList) 1)] 9
    (("/d/").toList) ⟨true⟩ (DBEntry.folder (("/").toList) 1) (by rfl) (by decide) (by rfl)
  simpa using h

/-- C6: an emitted event is delivered to a watcher exactly when the event
path equals the watched path, or the watched path is a folder path and the
event path's immediate parent equals the watched path; consequently deeper
descendants and unrelated paths are filtered out, and deletion of the
watched path itself matches through the equality branch. -/
theorem shouldEmit_iff (w : List Char) (e : WatchEvent) :
    shouldEmit w e = true ↔
      (e.filename = w ∨ (isFolderPath w = true ∧ getParentPath e.filename = w)) := by
  unfold shouldEmit
  by_cases h1 : e.filename = w
  · simp [h1]
  · by_cases h2 : isFolderPath w
    · simp [h1, h2]
    · simp [h1, h2]

/-- C7 (counterexample): a `next()` call blocks (setting the pending
resolver), and cancelling by explicit stream closure (`return()`) ends the
stream but resolves nothing: the output's `resolvedPending` component is
`none` and the pending flag survives, and neither later deliveries (the
callback is unsubscribed) nor later `next()` calls ever resolve it — the
claim's "a pending next() resolves immediately to stream ended at
cancellation" fails for `return()`-cancellation. -/
theorem watch_return_pending_cex :
    stepW (("/").toList) (subscribeInit false) .next =
      (⟨[], true, false, true⟩, ⟨none, none⟩) ∧
    stepW (("/").toList) ⟨[], true, false, true⟩ .ret =
      (⟨[], true, true, false⟩, ⟨none, some .ended⟩) ∧
    stepW (("/").toList) ⟨[], true, true, false⟩ (.deliver ⟨.rename, ("/x").toList⟩) =
      (⟨[], true, true, false⟩, ⟨none, none⟩) ∧
    stepW (("/").toList) ⟨[], true, true, false⟩ .next =
      (⟨[], true, true, false⟩, ⟨none, some .ended⟩) :=
  ⟨rfl, rfl, rfl, rfl⟩

/-- C7 (amended): once a watcher is ended and unsubscribed (by abort or by
`return()`), this is permanent: across any further interaction sequence no
event value is ever surfaced (queued events are discarded) and every
`next()` resolves to stream-ended; an abort signal resolves a blocked
`next()` immediately to stream-ended; a signal already aborted at subscribe
time starts the stream ended with an empty queue; but a `next()` already
blocked when `return()` is called is not resolved by the closure — it stays
pending forever unless the abort signal later fires. -/
theorem watch_cancellation_amended :
    (∀ (wp : List Char) (s : WatchState) (as : List WAction),
      s.done = true → s.subscribed = false →
      (runW wp s as).1.done = true ∧ (runW wp s as).1.subscribed = false ∧
      ∀ pr ∈ (runW wp s as).2,
        outNoValue pr.2 ∧ (pr.1 = WAction.next → pr.2.ret = some .ended)) ∧
    (∀ (wp : List Char) (s : WatchState), s.pending = true →
      stepW wp s .abort = (⟨s.queue, false, true, false⟩, ⟨some .ended, none⟩)) ∧
    subscribeInit true = ⟨[], false, true, false⟩ ∧
    (∀ (wp : List Char) (s : WatchState), s.pending = true →
      stepW wp s .ret = (⟨s.queue, true, true, false⟩, ⟨none, some .ended⟩)) := by
  refine ⟨?_, ?_, ?_, ?_⟩
  · intro wp s as hd hs
    induction as generalizing s with
    | nil => exact ⟨hd, hs, by simp [runW]⟩
    | cons a rest ih =>
      have hstep : ((stepW wp s a).1.done = true ∧ (stepW wp s a).1.subscribed = false) ∧
          (outNoValue (stepW wp s a).2 ∧
            (a = WAction.next → (stepW wp s a).2.ret = some .ended)) := by
        cases a with
        | deliver e => simp [stepW, hs, hd, outNoValue]
        | next => simp [stepW, hd, hs, outNoValue]
        | abort =>
          by_cases hp : s.pending = true
          · simp [stepW, hp, outNoValue]
          · simp [stepW, hp, outNoValue]
        | ret => simp [stepW, hs, hd, outNoValue]
      obtain ⟨⟨hd1, hs1⟩, hout⟩ := hstep
      have hrest := ih (stepW wp s a).1 hd1 hs1
      refine ⟨by simpa [runW] using hrest.1, by simpa [runW] using hrest.2.1, ?_⟩
      intro pr hpr
      simp only [runW, List.mem_cons] at hpr
      rcases hpr with h | h
      · subst h
        exact hout
      · exact hrest.2.2 pr h
  · intro wp s hp
    simp [stepW, hp]
  · rfl
  · intro wp s hp
    simp [stepW, hp]

/-- Witness for C7's amended statement: a stream that is already ended with
a queued undelivered event answers a `next()` with stream-ended and no
value; an abort resolves a blocked `next()` to stream-ended; `return()` on a
blocked `next()` leaves it unresolved. -/
theorem watch_cancellation_amended_witness :
    (outNoValue (⟨none, some .ended⟩ : WOut) ∧
      ((WAction.next, (⟨none, some IterRes.ended⟩ : WOut)).1 = WAction.next →
        (WAction.next, (⟨none, some IterRes.ended⟩ : WOut)).2.ret = some .ended)) ∧
    stepW (("/").toList) ⟨[], true, false, true⟩ .abort =
      (⟨[], false, true, false⟩, ⟨some .ended, none⟩) ∧
    stepW (("/").toList) ⟨[], true, false, true⟩ .ret =
      (⟨[], true, true, false⟩, ⟨none, some .ended⟩) :=
  ⟨(watch_cancellation_amended.1 (("/").toList)
      ⟨[⟨.rename, ("/x").toList⟩], false, true, false⟩ [WAction.next] rfl rfl).2.2
      (WAction.next, ⟨none, some IterRes.ended⟩) (by decide),
   watch_cancellation_amended.2.1 (("/").toList) ⟨[], true, false, true⟩ rfl,
   watch_cancellation_amended.2.2.2 (("/").toList) ⟨[], true, false, true⟩ rfl⟩

/-- C10: `stat` is insensitive to the trailing separator: for a stored
folder entry reachable at a valid non-root folder path `P` (which ends with
the separator), `stat` on `P` without its trailing separator succeeds and
returns the same result — directory kind, same mtime — as `stat` on `P`,
because path-to-storage-key conversion strips the trailing separator before
lookup. -/
theorem stat_trailing_sep_insensitive (store : Store) (P : List Char) (e : DBEntry)
    (hE : endsWithChar '/' P = true) (hroot : P ≠ ['/'])
    (hv : validatePath P none = .ok P)
    (hget : storeGet store (toStoragePath P) = some e) (hf : e.isFolder = true) :
    stat store P.dropLast = .ok ⟨false, true, e.mtime⟩ ∧
      stat store P = .ok ⟨false, true, e.mtime⟩ := by
  obtain ⟨hhead, hsegs⟩ := validatePath_ok_parts hv
  have hPdec : P = P.dropLast ++ ['/'] := endsWith_decomp '/' P hE
  set Q := P.dropLast with hQdef
  have hQne : Q ≠ [] := by
    intro h0
    rw [h0] at hPdec
    simp only [List.nil_append] at hPdec
    exact hroot hPdec
  have hQhead : Q.head? = some '/' := by
    cases hQ : Q with
    | nil => exact absurd hQ hQne
    | cons q0 qs =>
      rw [hPdec, hQ] at hhead
      simpa using hhead
  have hsplitP : splitOnChar '/' P = splitOnChar '/' Q ++ [[]] := by
    conv_lhs => rw [hPdec]
    exact split_append_sep '/' Q
  obtain ⟨s0, ss, hsQ⟩ : ∃ s0 ss, splitOnChar '/' Q = s0 :: ss := by
    cases hs : splitOnChar '/' Q with
    | nil => exact absurd hs (split_ne_nil '/' Q)
    | cons a b => exact ⟨a, b, rfl⟩
  have hsegsP : validSegs (ss ++ [[]]) = true := by
    rw [hsplitP, hsQ] at hsegs
    simpa using hsegs
  have hQnotRoot : Q ≠ ['/'] := by
    intro h0
    rw [h0] at hsQ
    have hcomp : splitOnChar '/' ['/'] = [[], []] := rfl
    rw [hcomp] at hsQ
    injection hsQ with h1 h2
    rw [← h2] at hsegsP
    exact absurd hsegsP (by decide)
  have hQnotEnd : endsWithChar '/' Q = false := by
    rw [← Bool.not_eq_true]
    intro hend
    have hQdec := endsWith_decomp '/' Q hend
    have hsplitQ : splitOnChar '/' Q = splitOnChar '/' Q.dropLast ++ [[]] := by
      conv_lhs => rw [hQdec]
      exact split_append_sep '/' Q.dropLast
    obtain ⟨r0, rs, hsR⟩ : ∃ r0 rs, splitOnChar '/' Q.dropLast = r0 :: rs := by
      cases hs : splitOnChar '/' Q.dropLast with
      | nil => exact absurd hs (split_ne_nil '/' Q.dropLast)
      | cons a b => exact ⟨a, b, rfl⟩
    rw [hsQ, hsR] at hsplitQ
    injection hsplitQ with h1 h2
    rw [h2] at hsegsP
    have hfalse : validSegs (rs.append [[]] ++ [[]]) = false := by
      have hdn := validSegs_double_nil rs
      simpa using hdn
    rw [hfalse] at hsegsP
    cases hsegsP
  have hfile : e.isFile = false := by
    cases e with
    | file c p m => simp [DBEntry.isFolder, DBEntry.isFile] at hf
    | folder p m => rfl
  have htoP : toStoragePath P = Q := by
    simp [toStoragePath, hroot, hE]
  have htoQ : toStoragePath Q = Q := by
    simp [toStoragePath, hQnotRoot, hQnotEnd]
  have hsegsQ : validSegs ((splitOnChar '/' Q).tail) = true := by
    rw [hsQ]
    simpa using validSegs_of_append_nil ss hsegsP
  have hvQ : validatePath Q none = .ok Q := by
    simp [validatePath, hQhead, hsegsQ]
  have hgetQ : storeGet store Q = some e := by
    rw [← htoP]
    exact hget
  constructor
  · simp [stat, hvQ, htoQ, hgetQ, hfile]
  · simp [stat, hv, hget, hfile]

/-- Witness for C10: a store holding a folder entry at key `/a` created from
the folder path `/a/`; both `stat("/a")` and `stat("/a/")` return the same
directory stats. -/
theorem stat_trailing_sep_insensitive_witness :
    stat [((("/a").toList), DBEntry.folder (("/").toList) 3)] ((("/a/").toList).dropLast) =
      .ok ⟨false, true, 3⟩ ∧
    stat [((("/a").toList), DBEntry.folder (("/").toList) 3)] (("/a/").toList) =
      .ok ⟨false, true, 3⟩ :=
  stat_trailing_sep_insensitive [((("/a").toList), DBEntry.folder (("/").toList) 3)]
    (("/a/").toList) (DBEntry.folder (("/").toList) 3)
    (by decide) (by decide) (by rfl) (by rfl) (by rfl)

/-- C9: `joinPath(base, ...segments)` resolves `.` and `..` relative to the
base and treats absolute segments as resets to the base rather than to the
filesystem root: the result always has the normalized base (with leading and
trailing separator) as a prefix — excess `..` segments clamp at the base and
never raise an error or escape above it — and a segment starting with the
separator restarts the computation at the base. -/
theorem joinPath_clamps_to_base (base : List Char) (paths : List (List Char)) :
    (∃ rest, joinPath base paths = normBase base ++ rest) ∧
    (∀ (ps : List (List Char)) (p : List Char) (rs : List (List Char)),
      paths = ps ++ p :: rs → p.head? = some '/' →
      joinPath base paths = joinPath base (p :: rs)) := by
  constructor
  · simp only [joinPath]
    cases h1 : (joinGo [] none paths).1 with
    | nil =>
      cases h2 : (joinGo [] none paths).2 with
      | none => exact ⟨[], by simp [h1, h2]⟩
      | some f => exact ⟨f, by simp [h1, h2]⟩
    | cons a as =>
      cases h2 : (joinGo [] none paths).2 with
      | none =>
        exact ⟨List.intercalate ['/'] (a :: as) ++ ['/'], by simp [h1, h2]⟩
      | some f =>
        exact ⟨List.intercalate ['/'] (a :: as) ++ ['/'] ++ f, by simp [h1, h2]⟩
  · intro ps p rs hps hh
    subst hps
    simp only [joinPath]
    rw [joinGo_reset_append ps [] none p rs hh]

/-- Witness for C9: two excess `..` segments clamp at the base `/home`, and
an absolute segment `/etc` resets an earlier `a` segment back to the base. -/
theorem joinPath_clamps_to_base_witness :
    (∃ rest, joinPath (("/home").toList) [("..").toList, ("..").toList] =
      normBase (("/home").toList) ++ rest) ∧
    joinPath (("/home").toList) [("a").toList, ("/etc").toList] =
      joinPath (("/home").toList) [("/etc").toList] :=
  ⟨(joinPath_clamps_to_base (("/home").toList) [("..").toList, ("..").toList]).1,
   (joinPath_clamps_to_base (("/home").toList) [("a").toList, ("/etc").toList]).2
     [("a").toList] (("/etc").toList) [] rfl (by decide)⟩

/-- C2: renaming a folder moves the source entry together with every
transitive descendant.  Part one (for every well-formed store and every
moved item the collection phase of `rename` produces): the item's new
storage key is its old key with the destination prefix substituted for the
source prefix, its entry is re-parented accordingly, descendants keep their
mtime, and only the top-level moved entry receives the new mtime.  Part two
(the spec's subtree scenario, concretely): after creating
`/parent/child/file.txt` and renaming `/parent/` to `/moved/`,
`/moved/child/file.txt` is readable with the original content,
`stat("/parent/")` fails `NotFound`, the moved descendants keep their
original mtime 1, and the top-level `/moved` entry carries the rename-time
mtime 2. -/
theorem rename_moves_subtree :
    (∀ (store : Store) (oldKey newKey tpk : List Char) (src : DBEntry) (t fuel : Nat),
      WFStore store → 2 ≤ oldKey.length → 2 ≤ newKey.length →
      ∀ it ∈ renameCollect store fuel [⟨oldKey, newKey, src.withParentMtime tpk t⟩] [],
        MovedSpec store oldKey newKey tpk src t it) ∧
    (writeFile [] 1 (("/parent/child/file.txt").toList) [104, 105] =
        .ok (renameDemoStore1, [⟨.rename, ("/parent/child/file.txt").toList⟩]) ∧
      rename renameDemoStore1 2 (("/parent/").toList) (("/moved/").toList) =
        .ok (renameDemoStore2, []) ∧
      readFile renameDemoStore2 (("/moved/child/file.txt").toList) = .ok [104, 105] ∧
      stat renameDemoStore2 (("/parent/").toList) =
        .error ⟨.ENOENT, ("/parent/").toList, "stat"⟩ ∧
      storeGet renameDemoStore2 (("/moved/child").toList) =
        some (DBEntry.folder (("/moved").toList) 1) ∧
      storeGet renameDemoStore2 (("/moved/child/file.txt").toList) =
        some (DBEntry.file [104, 105] (("/moved/child").toList) 1) ∧
      storeGet renameDemoStore2 (("/moved").toList) =
        some (DBEntry.folder (("/").toList) 2)) := by
  constructor
  · intro store oldKey newKey tpk src t fuel hwf ho hnk it hit
    refine renameCollect_sound store oldKey newKey tpk src t hwf ho hnk fuel _ [] ?_
      (by simp) it hit
    intro it' hit'
    simp only [List.mem_singleton] at hit'
    subst hit'
    exact ⟨[], by simp, by simp, Or.inl ⟨rfl, rfl⟩⟩
  · exact ⟨rfl, rfl, rfl, rfl, rfl, rfl, rfl⟩

/-- Witness for C2's universal part: on the concrete demo store, the moved
descendant `/parent/child/file.txt` satisfies the moved-item specification
(destination prefix substituted, re-parented, mtime preserved). -/
theorem rename_moves_subtree_witness :
    MovedSpec renameDemoStore1 (("/parent").toList) (("/moved").toList) (("/").toList)
      (DBEntry.folder (("/").toList) 1) 2
      ⟨("/parent/child/file.txt").toList, ("/moved/child/file.txt").toList,
       DBEntry.file [104, 105] (("/moved/child").toList) 1⟩ :=
  rename_moves_subtree.1 renameDemoStore1 (("/parent").toList) (("/moved").toList)
    (("/").toList) (DBEntry.folder (("/").toList) 1) 2 4
    (by
      intro kv hkv
      simp only [renameDemoStore1, List.mem_cons, List.not_mem_nil, or_false] at hkv
      rcases hkv with h | h | h
      · subst h
        exact ⟨("parent").toList, by decide, by decide, by decide⟩
      · subst h
        exact ⟨("child").toList, by decide, by decide, by decide⟩
      · subst h
        exact ⟨("file.txt").toList, by decide, by decide, by decide⟩)
    (by decide) (by decide)
    ⟨("/parent/child/file.txt").toList, ("/moved/child/file.txt").toList,
     DBEntry.file [104, 105] (("/moved/child").toList) 1⟩
    (by decide)

end LiteFS
